import Mathlib

set_option maxRecDepth 1000000

/-!
Verification of the breach-ingestor prefix-sharded streaming ingestion engine.

This file shallowly embeds the ingestion pipeline of the repository:
the email normalizer and keyed hasher (HMAC-SHA-256), the credential
classifier, the per-line parsers of both ingest variants, the bounded LRU
stream cache, the batch writer, the progress store persistence, and the
input file enumeration.  Strings are modelled as Lean Strings or lists of
characters; bytes as Nat (values below 256); JavaScript string methods are
translated for the ASCII range that the pipeline data exercises.
-/

namespace BreachIngestor

/-! ## Character helpers (ASCII models of the JS string methods used) -/

/-- Model of the JavaScript whitespace class used by trim and the regex
escape backslash-s: tab, LF, VT, FF, CR, space, NBSP, LS, PS, BOM. -/
def isJsWs (c : Char) : Bool :=
  c.toNat = 9 || c.toNat = 10 || c.toNat = 11 || c.toNat = 12 ||
  c.toNat = 13 || c.toNat = 32 || c.toNat = 160 ||
  c.toNat = 8232 || c.toNat = 8233 || c.toNat = 65279

/-- ASCII model of String.prototype.toLowerCase: map A-Z to a-z,
leave every other character unchanged. -/
def jsLowerChar (c : Char) : Char :=
  if 65 ≤ c.toNat && c.toNat ≤ 90 then Char.ofNat (c.toNat + 32) else c

/-- Character class of the normalizer regex: lowercase letter or digit. -/
def isLowerAlnum (c : Char) : Bool :=
  (97 ≤ c.toNat && c.toNat ≤ 122) || (48 ≤ c.toNat && c.toNat ≤ 57)

/-- ASCII alphanumeric (either case): the complement is what the spec
calls non-alphanumeric characters. -/
def isAsciiAlnum (c : Char) : Bool :=
  (48 ≤ c.toNat && c.toNat ≤ 57) || (65 ≤ c.toNat && c.toNat ≤ 90) ||
  (97 ≤ c.toNat && c.toNat ≤ 122)

/-- Drop trailing JS whitespace from a list of characters. -/
def dropTrailWs (l : List Char) : List Char :=
  match l with
  | [] => []
  | c :: cs =>
    let r := dropTrailWs cs
    if r.isEmpty then (if isJsWs c then [] else [c]) else c :: r

/-- Model of String.prototype.trim: drop leading and trailing whitespace. -/
def jsTrim (l : List Char) : List Char :=
  dropTrailWs (l.dropWhile isJsWs)

/-- Split a list at the first occurrence of a character: mirrors the
combination of indexOf and the two slice calls in the source.  Returns
none when the character does not occur. -/
def splitAtFirst (ch : Char) : List Char → Option (List Char × List Char)
  | [] => none
  | c :: cs =>
    if c = ch then some ([], cs)
    else
      match splitAtFirst ch cs with
      | some (a, b) => some (c :: a, b)
      | none => none

/-! ## Email normalizer (normalizeEmail in parse-and-hash.js and in the
inline ingestor): trim, lowercase, strip a leading run of characters
outside [a-z0-9], and if an at-sign occurs at a positive index drop the
local part from its first plus sign onward. -/

/-- Core of normalizeEmail on character lists. -/
def normalizeEmailCore (l : List Char) : List Char :=
  let e := (jsTrim l).map jsLowerChar
  let e2 := e.dropWhile (fun c => !(isLowerAlnum c))
  match splitAtFirst '@' e2 with
  | some (loc, dom) =>
    if loc.isEmpty then e2
    else loc.takeWhile (fun c => c != '+') ++ '@' :: dom
  | none => e2

/-- The normalizeEmail function of the source, on Strings. -/
def normalizeEmail (s : String) : String :=
  String.mk (normalizeEmailCore s.data)

/-! ## SHA-256 and HMAC-SHA-256 (crypto.createHmac with sha256),
on byte lists (Nat values below 256), arithmetic modulo 2 to the 32. -/

def M32 : Nat := 4294967296

def rotr32 (n x : Nat) : Nat := ((x >>> n) ||| (x <<< (32 - n))) % M32

def shaCh (x y z : Nat) : Nat := (x &&& y) ^^^ ((x ^^^ 4294967295) &&& z)

def shaMaj (x y z : Nat) : Nat := (x &&& y) ^^^ (x &&& z) ^^^ (y &&& z)

def bigSigma0 (x : Nat) : Nat := rotr32 2 x ^^^ rotr32 13 x ^^^ rotr32 22 x

def bigSigma1 (x : Nat) : Nat := rotr32 6 x ^^^ rotr32 11 x ^^^ rotr32 25 x

def smallSigma0 (x : Nat) : Nat := rotr32 7 x ^^^ rotr32 18 x ^^^ (x >>> 3)

def smallSigma1 (x : Nat) : Nat := rotr32 17 x ^^^ rotr32 19 x ^^^ (x >>> 10)

/-- The 64 SHA-256 round constants of FIPS 180-4, written in decimal. -/
def shaK : List Nat :=
  [1116352408, 1899447441, 3049323471, 3921009573, 961987163, 1508970993,
   2453635748, 2870763221, 3624381080, 310598401, 607225278, 1426881987,
   1925078388, 2162078206, 2614888103, 3248222580, 3835390401, 4022224774,
   264347078, 604807628, 770255983, 1249150122, 1555081692, 1996064986,
   2554220882, 2821834349, 2952996808, 3210313671, 3336571891, 3584528711,
   113926993, 338241895, 666307205, 773529912, 1294757372, 1396182291,
   1695183700, 1986661051, 2177026350, 2456956037, 2730485921, 2820302411,
   3259730800, 3345764771, 3516065817, 3600352804, 4094571909, 275423344,
   430227734, 506948616, 659060556, 883997877, 958139571, 1322822218,
   1537002063, 1747873779, 1955562222, 2024104815, 2227730452, 2361852424,
   2428436474, 2756734187, 3204031479, 3329325298]

/-- Working state of the compression function. -/
structure H8 where
  a : Nat
  b : Nat
  c : Nat
  d : Nat
  e : Nat
  f : Nat
  g : Nat
  h : Nat
deriving DecidableEq, Repr

/-- Initial hash value of FIPS 180-4, written in decimal. -/
def shaH0 : H8 :=
  ⟨1779033703, 3144134277, 1013904242, 2773480762,
   1359893119, 2600822924, 528734635, 1541459225⟩

/-- Big-endian bytes of a 32-bit word. -/
def be4 (v : Nat) : List Nat :=
  [(v >>> 24) % 256, (v >>> 16) % 256, (v >>> 8) % 256, v % 256]

/-- Big-endian bytes of a 64-bit length field. -/
def be8 (v : Nat) : List Nat :=
  [(v >>> 56) % 256, (v >>> 48) % 256, (v >>> 40) % 256, (v >>> 32) % 256,
   (v >>> 24) % 256, (v >>> 16) % 256, (v >>> 8) % 256, v % 256]

/-- Combine groups of four bytes into big-endian 32-bit words. -/
def toWordsBE : List Nat → List Nat
  | a :: b :: c :: d :: rest =>
    ((a <<< 24) ||| (b <<< 16) ||| (c <<< 8) ||| d) :: toWordsBE rest
  | _ => []

/-- Extend the 16 message words to the 64-entry schedule. -/
def extendW (w0 : Array Nat) : Array Nat :=
  (List.range 48).foldl
    (fun w i =>
      let t := (smallSigma1 (w.getD (i + 14) 0) + w.getD (i + 9) 0 +
                smallSigma0 (w.getD (i + 1) 0) + w.getD i 0) % M32
      w.push t) w0

/-- One round of the SHA-256 compression function. -/
def roundStep (st : H8) (ki wi : Nat) : H8 :=
  let t1 := (st.h + bigSigma1 st.e + shaCh st.e st.f st.g + ki + wi) % M32
  let t2 := (bigSigma0 st.a + shaMaj st.a st.b st.c) % M32
  ⟨(t1 + t2) % M32, st.a, st.b, st.c, (st.d + t1) % M32, st.e, st.f, st.g⟩

/-- Compress one 64-byte block into the running hash value. -/
def compressBlock (hs : H8) (block : List Nat) : H8 :=
  let w := extendW (Array.mk (toWordsBE block))
  let st := (List.range 64).foldl
    (fun st i => roundStep st (shaK.getD i 0) (w.getD i 0)) hs
  ⟨(hs.a + st.a) % M32, (hs.b + st.b) % M32, (hs.c + st.c) % M32,
   (hs.d + st.d) % M32, (hs.e + st.e) % M32, (hs.f + st.f) % M32,
   (hs.g + st.g) % M32, (hs.h + st.h) % M32⟩

/-- Standard SHA-256 padding: 0x80, zeros to 56 mod 64, 8-byte bit length. -/
def padMsg (msg : List Nat) : List Nat :=
  let len := msg.length
  let zeros := (119 - len % 64) % 64
  msg ++ 128 :: List.replicate zeros 0 ++ be8 (8 * len)

/-- Split a byte list into 64-byte chunks.  Structural recursion on a
fuel bound (the list length) so that the kernel can evaluate it. -/
def chunks64Aux : Nat → List Nat → List (List Nat)
  | 0, _ => []
  | _ + 1, [] => []
  | n + 1, l => l.take 64 :: chunks64Aux n (l.drop 64)

/-- Split a byte list into 64-byte chunks. -/
def chunks64 (l : List Nat) : List (List Nat) := chunks64Aux l.length l

/-- SHA-256 of a byte list, as 32 bytes. -/
def sha256Bytes (msg : List Nat) : List Nat :=
  let fin := (chunks64 (padMsg msg)).foldl compressBlock shaH0
  be4 fin.a ++ be4 fin.b ++ be4 fin.c ++ be4 fin.d ++
  be4 fin.e ++ be4 fin.f ++ be4 fin.g ++ be4 fin.h

/-- HMAC-SHA-256 over byte lists (block size 64). -/
def hmacSha256 (key msg : List Nat) : List Nat :=
  let k0 :=
    if 64 < key.length then sha256Bytes key ++ List.replicate 32 0
    else key ++ List.replicate (64 - key.length) 0
  let ipad := k0.map (fun b => b ^^^ 0x36)
  let opad := k0.map (fun b => b ^^^ 0x5c)
  sha256Bytes (opad ++ sha256Bytes (ipad ++ msg))

/-- Lowercase hex digit for a value below 16. -/
def hexDigitChar (n : Nat) : Char :=
  if n < 10 then Char.ofNat (48 + n) else Char.ofNat (87 + n)

/-- Lowercase hex rendering of a byte list (digest call of the source). -/
def hexOfBytes (bs : List Nat) : List Char :=
  bs.foldr (fun b acc => hexDigitChar (b / 16 % 16) :: hexDigitChar (b % 16) :: acc) []

/-- Byte encoding of the pipeline strings.  The source hands JS strings to
the UTF-8 hash update; the record data this pipeline hashes is ASCII, for
which UTF-8 is the identity on code points. -/
def asciiBytes (l : List Char) : List Nat := l.map Char.toNat

/-- Core of hashEmail: HMAC-SHA-256 of the normalized email under the
process key, rendered as 64 lowercase hex characters. -/
def hashEmailCore (key : List Nat) (email : List Char) : String :=
  String.mk (hexOfBytes (hmacSha256 key (asciiBytes (normalizeEmailCore email))))

/-- The hashEmail function of the source.  The 32-byte HMAC key loaded
from the environment is passed explicitly. -/
def hashEmail (key : List Nat) (email : String) : String :=
  hashEmailCore key email.data

/-! ## Credential classifier (detectHash): anchored regex tests translated
into decidable matchers on character lists. -/

/-- Digit character. -/
def isDigitC (c : Char) : Bool := 48 ≤ c.toNat && c.toNat ≤ 57

/-- Character class A-Za-z0-9./ of the bcrypt and crypt bodies. -/
def isCryptB64 (c : Char) : Bool :=
  (65 ≤ c.toNat && c.toNat ≤ 90) || (97 ≤ c.toNat && c.toNat ≤ 122) ||
  isDigitC c || c == '.' || c == '/'

/-- Character class A-Za-z0-9+/= of the SSHA and SHA bodies. -/
def isB64 (c : Char) : Bool :=
  (65 ≤ c.toNat && c.toNat ≤ 90) || (97 ≤ c.toNat && c.toNat ≤ 122) ||
  isDigitC c || c == '+' || c == '/' || c == '='

/-- Hex digit character class A-Fa-f0-9. -/
def isHexC (c : Char) : Bool :=
  isDigitC c || (65 ≤ c.toNat && c.toNat ≤ 70) || (97 ≤ c.toNat && c.toNat ≤ 102)

/-- Anchored bcrypt pattern: dollar, 2, one of aby, dollar, two digits,
dollar, then exactly 53 characters from the bcrypt alphabet. -/
def matchBcrypt (pw : List Char) : Bool :=
  match pw with
  | a :: b :: v :: c :: d1 :: d2 :: e :: rest =>
    a == '$' && b == '2' && (v == 'a' || v == 'b' || v == 'y') && c == '$' &&
    isDigitC d1 && isDigitC d2 && e == '$' &&
    rest.length == 53 && rest.all isCryptB64
  | _ => false

/-- Tail of the argon2 pattern after the variant letter: dollar v equals
digits dollar, then a remainder that the three greedy dot-star groups can
cover, which means it holds at least two further dollars and no newline. -/
def argonSuffix (r : List Char) : Bool :=
  List.isPrefixOf ['$', 'v', '='] r &&
  (let r2 := r.drop 3
   let ds := r2.takeWhile isDigitC
   let r3 := r2.dropWhile isDigitC
   !ds.isEmpty &&
   (match r3 with
    | x :: tail => x == '$' && 2 ≤ tail.count '$' && !(tail.contains '\n')
    | [] => false))

/-- Anchored argon2 pattern.  The alternation i, d, id of the source regex
matches whichever variant spelling lets the rest of the pattern succeed. -/
def matchArgon2 (pw : List Char) : Bool :=
  List.isPrefixOf ['$', 'a', 'r', 'g', 'o', 'n', '2'] pw &&
  (let rest := pw.drop 7
   (List.isPrefixOf ['i', 'd'] rest && argonSuffix (rest.drop 2)) ||
   (List.isPrefixOf ['i'] rest && argonSuffix (rest.drop 1)) ||
   (List.isPrefixOf ['d'] rest && argonSuffix (rest.drop 1)))

/-- Salt-and-body tail of the crypt patterns: one or more non-dollar
characters, a dollar, then one or more characters from A-Za-z0-9./ . -/
def matchCryptTail (rest : List Char) : Bool :=
  let salt := rest.takeWhile (fun c => c != '$')
  match rest.dropWhile (fun c => c != '$') with
  | x :: body => x == '$' && !salt.isEmpty && !body.isEmpty && body.all isCryptB64
  | [] => false

/-- Name chosen by the source for each crypt identifier. -/
def cryptName (c : Char) : String :=
  if c == '1' then "md5-crypt" else if c == '5' then "sha256-crypt" else "sha512-crypt"

/-- Combined crypt regex of the source: anchored dollar (1 or 5 or 6)
dollar salt dollar body, returning the mapped hash type on a match. -/
def matchCrypt? (pw : List Char) : Option String :=
  match pw with
  | a :: b :: c :: rest =>
    if a == '$' && (b == '1' || b == '5' || b == '6') && c == '$' &&
       matchCryptTail rest
    then some (cryptName b) else none
  | _ => none

/-- Anchored SSHA pattern: literal brace S S H A brace then one or more
base64 characters.  The braces are written via their code points. -/
def matchSSHA (pw : List Char) : Bool :=
  match pw with
  | a :: b :: c :: d :: e :: f :: rest =>
    a == Char.ofNat 123 && b == 'S' && c == 'S' && d == 'H' && e == 'A' &&
    f == Char.ofNat 125 && !rest.isEmpty && rest.all isB64
  | _ => false

/-- Anchored SHA pattern: literal brace S H A brace then one or more
base64 characters. -/
def matchSHA (pw : List Char) : Bool :=
  match pw with
  | a :: b :: c :: d :: e :: rest =>
    a == Char.ofNat 123 && b == 'S' && c == 'H' && d == 'A' &&
    e == Char.ofNat 125 && !rest.isEmpty && rest.all isB64
  | _ => false

/-- Core of detectHash: trim, then the if-chain of the source in order:
bcrypt, argon2, the combined crypt regex, SSHA, SHA, and the all-hex test
with the length switch; anything else is plaintext. -/
def detectHashCore (value : List Char) : Bool × String :=
  let pw := jsTrim value
  if matchBcrypt pw then (true, "bcrypt")
  else if matchArgon2 pw then (true, "argon2")
  else
    match matchCrypt? pw with
    | some t => (true, t)
    | none =>
      if matchSSHA pw then (true, "ssha")
      else if matchSHA pw then (true, "sha1-base64")
      else if !pw.isEmpty && pw.all isHexC then
        if pw.length == 32 then (true, "md5-hex")
        else if pw.length == 40 then (true, "sha1-hex")
        else if pw.length == 64 then (true, "sha256-hex")
        else if pw.length == 128 then (true, "sha512-hex")
        else (false, "plaintext")
      else (false, "plaintext")

/-- The detectHash function of the source, on Strings. -/
def detectHash (s : String) : Bool × String := detectHashCore s.data

/-! Spec-side classifier: the section 4.2 pattern table, written from the
words of the spec as separate anchored rows tried in order with first
match winning.  Used to state the refinement claim about detectHash. -/

/-- Spec table row for md5-crypt. -/
def specMd5Crypt (pw : List Char) : Bool :=
  match pw with
  | a :: b :: c :: rest => a == '$' && b == '1' && c == '$' && matchCryptTail rest
  | _ => false

/-- Spec table row for sha256-crypt. -/
def specSha256Crypt (pw : List Char) : Bool :=
  match pw with
  | a :: b :: c :: rest => a == '$' && b == '5' && c == '$' && matchCryptTail rest
  | _ => false

/-- Spec table row for sha512-crypt. -/
def specSha512Crypt (pw : List Char) : Bool :=
  match pw with
  | a :: b :: c :: rest => a == '$' && b == '6' && c == '$' && matchCryptTail rest
  | _ => false

/-- Spec table row for a hex digest of an exact length. -/
def specHexRow (n : Nat) (pw : List Char) : Bool :=
  pw.length == n && pw.all isHexC

/-- Modelled from the spec: the section 4.2 decision table, one row per
pattern, in the given order. -/
def specTable : List ((List Char → Bool) × String) :=
  [(matchBcrypt, "bcrypt"), (matchArgon2, "argon2"),
   (specMd5Crypt, "md5-crypt"), (specSha256Crypt, "sha256-crypt"),
   (specSha512Crypt, "sha512-crypt"), (matchSSHA, "ssha"),
   (matchSHA, "sha1-base64"), (specHexRow 32, "md5-hex"),
   (specHexRow 40, "sha1-hex"), (specHexRow 64, "sha256-hex"),
   (specHexRow 128, "sha512-hex")]

/-- First matching row of a pattern table: rows are tried in order and
the first whose pattern accepts the trimmed credential wins. -/
def firstRow : List ((List Char → Bool) × String) → List Char → Option String
  | [], _ => none
  | row :: rest, pw => if row.1 pw then some row.2 else firstRow rest pw

/-- Modelled from the spec: trim, try the table rows in order, first match
wins, otherwise plaintext with is-hash false. -/
def tableClassify (value : List Char) : Bool × String :=
  let pw := jsTrim value
  match firstRow specTable pw with
  | some t => (true, t)
  | none => (false, "plaintext")

/-- The enumerated classifier outcomes of the data model. -/
def hashTypePairs : List (Bool × String) :=
  [(false, "plaintext"), (true, "md5-hex"), (true, "sha1-hex"),
   (true, "sha256-hex"), (true, "sha512-hex"), (true, "bcrypt"),
   (true, "argon2"), (true, "md5-crypt"), (true, "sha256-crypt"),
   (true, "sha512-crypt"), (true, "ssha"), (true, "sha1-base64")]

/-! ## Shard record and the two per-line processors -/

/-- Shard record emitted to a shard file, field for field as in the
source objects. -/
structure Record where
  email_hash : String
  password : String
  is_hash : Bool
  hash_type : String
  email : String
  source : String
deriving DecidableEq, Repr

/-- Per-line body of processFile in the inline ingestor (second variant):
skip empty lines; require a colon at index at least 1; left of the first
colon is the raw email and right the raw password; the emitted email is
the raw email lowercased then trimmed and must contain an at-sign; the
hash is of the raw email; the password is emitted untrimmed. -/
def processLine003 (key : List Nat) (source : String) (str : List Char) :
    Option Record :=
  if str.isEmpty then none
  else
    match splitAtFirst ':' str with
    | none => none
    | some (rawEmail, rawPass) =>
      if rawEmail.isEmpty then none
      else
        let emailNorm := jsTrim (rawEmail.map jsLowerChar)
        if emailNorm.contains '@' then
          some { email_hash := hashEmailCore key rawEmail,
                 password := String.mk rawPass,
                 is_hash := (detectHashCore rawPass).1,
                 hash_type := (detectHashCore rawPass).2,
                 email := String.mk emailNorm,
                 source := source }
        else none

/-- Separator class of the fallback split regex in parse-and-hash.js:
colon, semicolon or whitespace, with adjacent separators merged. -/
def isSepC (c : Char) : Bool := c == ':' || c == ';' || isJsWs c

/-- One step of the JS split on runs of separator characters. -/
def splitSepsStep (st : List (List Char) × List Char × Bool) (c : Char) :
    List (List Char) × List Char × Bool :=
  if isSepC c then
    if st.2.2 then st else (st.1 ++ [st.2.1], [], true)
  else (st.1, st.2.1 ++ [c], false)

/-- Model of the JS String split on the regex class colon-semicolon-space
with a plus quantifier: fields between maximal separator runs, including
an empty leading field when the string starts with a separator and an
empty trailing field when it ends with one. -/
def splitSeps (l : List Char) : List (List Char) :=
  let st := l.foldl splitSepsStep ([], [], false)
  st.1 ++ [st.2.1]

/-- Field extraction of processFile in parse-and-hash.js: split at the
first colon when one occurs anywhere; otherwise split the trimmed line on
runs of colon, semicolon or whitespace and take the first token as the
raw email and the second, or empty, as the raw password. -/
def extract006 (line : List Char) : List Char × List Char :=
  match splitAtFirst ':' line with
  | some (a, b) => (a, b)
  | none =>
    let parts := splitSeps (jsTrim line)
    (parts.headD [], (parts.drop 1).headD [])

/-- Per-line body of processFile in parse-and-hash.js, without the
in-memory deduplication set and the multi-field audit log, which affect
whether a duplicate is emitted but not the shape of an emitted record:
skip when the raw email is empty or its normalization has no at-sign;
the emitted email is the fully normalized email; the password is the
trimmed raw password. -/
def processLine006 (key : List Nat) (source : String) (line : List Char) :
    Option Record :=
  let fields := extract006 line
  if fields.1.isEmpty then none
  else
    let emailNorm := normalizeEmailCore fields.1
    if emailNorm.contains '@' then
      let password := jsTrim fields.2
      some { email_hash := hashEmailCore key emailNorm,
             password := String.mk password,
             is_hash := (detectHashCore password).1,
             hash_type := (detectHashCore password).2,
             email := String.mk emailNorm,
             source := source }
    else none

/-! ## Shard routing (inline ingestor): prefix and file path -/

/-- Shard file path built by LRUStreams.get from a prefix string: the
shard root, the first two characters as subdirectory, then the prefix
with the jsonl extension. -/
def shardFilePath (shardDir : String) (pre : String) : String :=
  shardDir ++ "/" ++ String.mk (pre.data.take 2) ++ "/" ++ pre ++ ".jsonl"

/-- Write events produced by the line loop of the inline processFile: for
each accepted line, the record is written through the stream cache writer
for the first four characters of its email hash.  The path of that writer
is the shard file path of the prefix, both when the writer is created and
when it is found in the cache, since cache entries are keyed by the exact
prefix they were created for. -/
def writeEvents003 (key : List Nat) (shardDir source : String)
    (lines : List (List Char)) : List (String × Record) :=
  lines.foldr
    (fun line acc =>
      match processLine003 key source line with
      | some rec =>
        (shardFilePath shardDir (String.mk (rec.email_hash.data.take 4)), rec) :: acc
      | none => acc) []

/-- Stem of a shard file name: the part of the last path component before
the six-character jsonl extension. -/
def fileStemOf (path : String) : String :=
  let base := (path.data.reverse.takeWhile (fun c => c != '/')).reverse
  String.mk (base.take (base.length - 6))

/-! ## Bounded LRU stream cache (second LRUStreams variant) -/

/-- Result of one LRUStreams.get call: the cache order after the call
(most recently used first), the prefix whose writer was closed by
eviction, if any, and whether a fresh writer was created. -/
structure GetResult where
  state : List String
  evicted : Option String
  fresh : Bool
deriving DecidableEq, Repr

/-- Model of the private evict method: when the map size has reached the
limit, unlink the tail node and close its writer.  The cache order is the
list of prefixes, most recently used first, so the tail is the last
element.  When the size is at the limit but the list is empty, which the
source would reach only with a zero limit, the null tail faults: modelled
as none. -/
def lruEvict (limit : Nat) (s : List String) :
    Option (List String × Option String) :=
  if s.length < limit then some (s, none)
  else
    match s.getLast? with
    | some q => some (s.dropLast, some q)
    | none => none

/-- Model of LRUStreams.get of the second variant: evict runs first,
unconditionally; then a present prefix is moved to the front and its
writer reused, and an absent prefix gets a fresh writer inserted at the
front. -/
def lruGet (limit : Nat) (p : String) (s : List String) : Option GetResult :=
  match lruEvict limit s with
  | none => none
  | some (s1, ev) =>
    if p ∈ s1 then some ⟨p :: s1.erase p, ev, false⟩
    else some ⟨p :: s1, ev, true⟩

/-- Cache orders reachable from the empty cache by any sequence of get
and closeAll operations. -/
inductive LruReach (limit : Nat) : List String → Prop
  | init : LruReach limit []
  | get {s : List String} {p : String} {r : GetResult} :
      LruReach limit s → lruGet limit p s = some r → LruReach limit r.state
  | closeAll {s : List String} : LruReach limit s → LruReach limit []

/-! ## Batch writer -/

/-- Model of a BatchWriter: the pending line queue, the closed flag, the
periodic timer flag, the bytes written to the underlying append stream,
and whether that stream has been ended. -/
structure BatchWriter where
  queue : List String
  closed : Bool
  timerOn : Bool
  fileData : String
  streamEnded : Bool
deriving DecidableEq, Repr

/-- Model of BatchWriter.flush: nothing to do on an empty queue;
otherwise join the queued lines with newlines, append a final newline,
write the data to the stream and clear the queue. -/
def bwFlush (b : BatchWriter) : BatchWriter :=
  if b.queue.isEmpty then b
  else { b with queue := [],
                fileData := b.fileData ++ String.intercalate "\n" b.queue ++ "\n" }

/-- Model of BatchWriter.write: a closed writer returns an already
resolved promise without touching the queue or the stream; otherwise the
line joins the queue, and reaching the batch size triggers a flush.  The
boolean is true when the returned promise resolves. -/
def bwWrite (batchSize : Nat) (b : BatchWriter) (line : String) :
    BatchWriter × Bool :=
  if b.closed then (b, true)
  else
    let q := b.queue ++ [line]
    if batchSize ≤ q.length then (bwFlush { b with queue := q }, true)
    else ({ b with queue := q }, true)

/-- Model of BatchWriter.end: a second end is a no-op; otherwise set the
closed flag, stop the timer, flush the remaining queue and end the
underlying stream. -/
def bwEnd (b : BatchWriter) : BatchWriter :=
  if b.closed then b
  else
    let b1 := bwFlush { b with closed := true, timerOn := false }
    { b1 with streamEnded := true }

/-! ## Progress store persistence -/

/-- Filesystem operations relevant to progress persistence. -/
inductive FsOp
  | write (path data : String)
  | rename (src dst : String)
deriving DecidableEq, Repr

/-- Whether an operation is a rename. -/
def FsOp.isRen : FsOp → Bool
  | .rename _ _ => true
  | _ => false

/-- True when no operation of the trace is a rename. -/
def noRenames (ops : List FsOp) : Bool := ops.all (fun op => !op.isRen)

/-- Model of saveProgress: a single direct writeFileSync of the serialized
progress document to the progress file path. -/
def saveProgressOps (progressFile doc : String) : List FsOp :=
  [FsOp.write progressFile doc]

/-- Assignment progress[file] = st on the progress object, modelled as an
association list update. -/
def setState (ps : List (String × String)) (file st : String) :
    List (String × String) :=
  if ps.any (fun pr => pr.1 == file) then
    ps.map (fun pr => if pr.1 == file then (pr.1, st) else pr)
  else ps ++ [(file, st)]

/-- Filesystem trace of the worker for one successfully processed file:
mark in-progress then save, process, mark done then save.  The serializer
stands for JSON.stringify of the progress object. -/
def workerFileOps (progressFile : String)
    (ser : List (String × String) → String)
    (ps : List (String × String)) (file : String) : List FsOp :=
  let p1 := setState ps file "in-progress"
  let p2 := setState p1 file "done"
  saveProgressOps progressFile (ser p1) ++ saveProgressOps progressFile (ser p2)

/-! ## Input file enumeration -/

/-- A directory tree as seen by the recursive readdir walk. -/
inductive FsEntry
  | file (name : String)
  | dir (name : String) (entries : List FsEntry)

/-- Model of path.join for the two-argument calls of the walk. -/
def pathJoin (a b : String) : String := a ++ "/" ++ b

/-- Model of String.prototype.endsWith: case-sensitive suffix test. -/
def jsEndsWith (s suffix : String) : Bool :=
  List.isSuffixOf suffix.data s.data

mutual

/-- Contribution of one directory entry to findTxtFiles: directories are
walked recursively; files are kept when their name ends with the
lowercase txt extension. -/
def findTxtEnt (d : String) : FsEntry → List String
  | .file n => if jsEndsWith n ".txt" then [pathJoin d n] else []
  | .dir n es => findTxtFiles (pathJoin d n) es

/-- The findTxtFiles walk of the source over a modelled directory
listing. -/
def findTxtFiles (d : String) : List FsEntry → List String
  | [] => []
  | e :: es => findTxtEnt d e ++ findTxtFiles d es

end

mutual

/-- All files of one entry with their full paths and bare names. -/
def entFiles (d : String) : FsEntry → List (String × String)
  | .file n => [(pathJoin d n, n)]
  | .dir n es => dirFiles (pathJoin d n) es

/-- All files under a directory listing with full paths and bare names. -/
def dirFiles (d : String) : List FsEntry → List (String × String)
  | [] => []
  | e :: es => entFiles d e ++ dirFiles d es

end

/-! ## Variant relations for the hash determinism claim -/

/-- One transform of the claim, read literally: an ASCII case change, a
prepended run of non-alphanumeric characters, or the insertion of a plus
tag at any position inside the local part, that is, anywhere before the
first at-sign. -/
inductive ClaimVariantStep : List Char → List Char → Prop
  | caseChange (s v : List Char) :
      v.map jsLowerChar = s.map jsLowerChar → ClaimVariantStep s v
  | leadJunk (p s : List Char) :
      p ≠ [] → (∀ c ∈ p, isAsciiAlnum c = false) → ClaimVariantStep s (p ++ s)
  | plusTagIns (a b t : List Char) :
      '@' ∉ a → '@' ∈ b → t ≠ [] → '@' ∉ t → '+' ∉ t →
      ClaimVariantStep (a ++ b) (a ++ '+' :: (t ++ b))

/-- One transform of the amended claim: as above, but the plus tag is
appended at the end of the local part, immediately before the first
at-sign, and the local part contains at least one alphanumeric
character. -/
inductive EmailVariantStep : List Char → List Char → Prop
  | caseChange (s v : List Char) :
      v.map jsLowerChar = s.map jsLowerChar → EmailVariantStep s v
  | leadJunk (p s : List Char) :
      p ≠ [] → (∀ c ∈ p, isAsciiAlnum c = false) → EmailVariantStep s (p ++ s)
  | plusTag (loc t dom : List Char) :
      (∃ c ∈ loc, isAsciiAlnum c = true) → '@' ∉ loc → '@' ∉ t →
      EmailVariantStep (loc ++ '@' :: dom) (loc ++ '+' :: (t ++ '@' :: dom))

/-- Composition closure of the amended transforms. -/
inductive EmailVariant : List Char → List Char → Prop
  | refl (s : List Char) : EmailVariant s s
  | step {s v w : List Char} :
      EmailVariantStep s v → EmailVariant v w → EmailVariant s w

/-- Search model of the field-role regex of the spec parser section: a
non-whitespace run, an at-sign, a non-whitespace run, a dot, a
non-whitespace run, anywhere in the field. -/
def emailRunTail : List Char → Bool
  | [] => false
  | c :: cs =>
    (c == '.' && (match cs with | d :: _ => !isJsWs d | [] => false)) ||
    (!isJsWs c && emailRunTail cs)

/-- After an at-sign: one or more non-whitespace characters, then a dot
followed by a non-whitespace character. -/
def afterAtRun : List Char → Bool
  | [] => false
  | c :: cs => !isJsWs c && emailRunTail cs

/-- Whether the spec email pattern matches anywhere in the field. -/
def hasEmailPattern : List Char → Bool
  | [] => false
  | [_] => false
  | a :: b :: cs =>
    (!isJsWs a && b == '@' && afterAtRun cs) || hasEmailPattern (b :: cs)

/-- The 32-byte all-zero HMAC key used for the concrete scenarios. -/
def zeroKey : List Nat := List.replicate 32 0

/-- Local-part rewriting branch of the normalizer, applied to the
stripped string: split at the first at-sign when it sits at a positive
index and drop the local part from its first plus sign. -/
def normStep4 (e2 : List Char) : List Char :=
  match splitAtFirst '@' e2 with
  | some (loc, dom) =>
    if loc.isEmpty then e2
    else loc.takeWhile (fun c => c != '+') ++ '@' :: dom
  | none => e2

/-- Canonical core of the normalizer: trailing whitespace trim,
lowercase, strip the leading run outside [a-z0-9].  The leading
whitespace trim of the source is absorbed by the leading strip, since
whitespace is itself outside [a-z0-9]. -/
def normCanon (l : List Char) : List Char :=
  ((dropTrailWs l).map jsLowerChar).dropWhile (fun c => !(isLowerAlnum c))

/-- Concrete input line for the shard routing scenario. -/
def c1line : List Char := "a@b.cd:x".data

/-- Record emitted by the inline ingestor for c1line under the zero key;
the email hash value is the HMAC-SHA-256 computed by the embedding. -/
def c1rec : Record :=
  { email_hash := "b281f88a42dcde85bd302343059d6580c48892810d13981811dc412b2299a2c9",
    password := "x", is_hash := false, hash_type := "plaintext",
    email := "a@b.cd", source := "/in/a.txt" }

/-- Shard path the c1line record is routed to. -/
def c1path : String := "/shards/b2/b281.jsonl"

/-- HMAC-SHA-256 of alice at example.com under the zero key, computed by
the embedding. -/
def c4hash : String := "0cf19c8f102ecc62b033b451c1d7cbe462dbb7a67636d9f843145c96788ed961"

/-- Record emitted by parse-and-hash for the scenario line under the
zero key. -/
def c4rec006 : Record :=
  ⟨c4hash, "hunter2", false, "plaintext", "alice@example.com", "/in/a.txt"⟩

/-- Record emitted by the inline ingestor for the scenario line under
the zero key: the email keeps the plus tag. -/
def c4rec003 : Record :=
  ⟨c4hash, "hunter2", false, "plaintext", "alice+news@example.com", "/in/a.txt"⟩

/-! # Theorems -/

/-! ## Character-level helper lemmas -/

theorem charToNat_ofNat_lt {n : Nat} (h : n < 55296) : (Char.ofNat n).toNat = n := by
  have hv : n.isValidChar := Or.inl h
  simp [Char.ofNat, hv, Char.ofNatAux, Char.toNat, UInt32.toNat, BitVec.toNat_ofNatLt]

theorem char_eq_of_toNat {a b : Char} (h : a.toNat = b.toNat) : a = b :=
  Char.ext (UInt32.ext h)

theorem jsLower_of_ws {c : Char} (h : isJsWs c = true) : jsLowerChar c = c := by
  unfold isJsWs at h
  simp only [Bool.or_eq_true, decide_eq_true_eq] at h
  unfold jsLowerChar
  rw [if_neg]
  simp only [Bool.and_eq_true, decide_eq_true_eq, not_and, not_le]
  omega

theorem lowerAlnum_of_ws {c : Char} (h : isJsWs c = true) : isLowerAlnum c = false := by
  unfold isJsWs at h
  simp only [Bool.or_eq_true, decide_eq_true_eq] at h
  unfold isLowerAlnum
  simp only [Bool.or_eq_false_iff, Bool.and_eq_false_iff, decide_eq_false_iff_not, not_le]
  omega

theorem ws_jsLower (c : Char) : isJsWs (jsLowerChar c) = isJsWs c := by
  unfold jsLowerChar
  split
  case isTrue h =>
    have h' : 65 ≤ c.toNat ∧ c.toNat ≤ 90 := by
      simpa only [Bool.and_eq_true, decide_eq_true_eq] using h
    have ht : (Char.ofNat (c.toNat + 32)).toNat = c.toNat + 32 :=
      charToNat_ofNat_lt (by omega)
    unfold isJsWs
    rw [ht, Bool.eq_iff_iff]
    simp only [Bool.or_eq_true, decide_eq_true_eq]
    omega
  case isFalse h => rfl

theorem lowerAlnum_jsLower_alnum {c : Char} (h : isAsciiAlnum c = true) :
    isLowerAlnum (jsLowerChar c) = true := by
  unfold isAsciiAlnum at h
  simp only [Bool.or_eq_true, Bool.and_eq_true, decide_eq_true_eq] at h
  unfold jsLowerChar
  split
  case isTrue hc =>
    simp only [Bool.and_eq_true, decide_eq_true_eq] at hc
    have ht : (Char.ofNat (c.toNat + 32)).toNat = c.toNat + 32 :=
      charToNat_ofNat_lt (by omega)
    unfold isLowerAlnum
    rw [ht]
    simp only [Bool.or_eq_true, Bool.and_eq_true, decide_eq_true_eq]
    omega
  case isFalse hc =>
    simp only [Bool.and_eq_true, decide_eq_true_eq, not_and, not_le] at hc
    unfold isLowerAlnum
    simp only [Bool.or_eq_true, Bool.and_eq_true, decide_eq_true_eq]
    omega

theorem lowerAlnum_jsLower_not_alnum {c : Char} (h : isAsciiAlnum c = false) :
    isLowerAlnum (jsLowerChar c) = false := by
  unfold isAsciiAlnum at h
  simp only [Bool.or_eq_false_iff, Bool.and_eq_false_iff,
    decide_eq_false_iff_not, not_le] at h
  unfold jsLowerChar
  split
  case isTrue hc =>
    simp only [Bool.and_eq_true, decide_eq_true_eq] at hc
    omega
  case isFalse hc =>
    unfold isLowerAlnum
    simp only [Bool.or_eq_false_iff, Bool.and_eq_false_iff,
      decide_eq_false_iff_not, not_le]
    omega

theorem jsLower_eq_at {c : Char} (h : jsLowerChar c = '@') : c = '@' := by
  unfold jsLowerChar at h
  split at h
  case isTrue hc =>
    simp only [Bool.and_eq_true, decide_eq_true_eq] at hc
    have ht : (Char.ofNat (c.toNat + 32)).toNat = c.toNat + 32 :=
      charToNat_ofNat_lt (by omega)
    have h64 : ('@' : Char).toNat = 64 := rfl
    have := congrArg Char.toNat h
    rw [ht, h64] at this
    omega
  case isFalse hc => exact h

/-! ## List-level helper lemmas -/

theorem dropWhile_append_all {α : Type} (P : α → Bool) {x : List α} (y : List α)
    (h : ∀ a ∈ x, P a = true) : (x ++ y).dropWhile P = y.dropWhile P := by
  induction x with
  | nil => rfl
  | cons a as ih =>
    have ha : P a = true := h a (by simp)
    simp only [List.cons_append, List.dropWhile_cons, ha, if_true]
    exact ih (fun b hb => h b (by simp [hb]))

theorem dropWhile_append_ne_nil {α : Type} (P : α → Bool) {x : List α} (y : List α)
    (h : x.dropWhile P ≠ []) : (x ++ y).dropWhile P = x.dropWhile P ++ y := by
  induction x with
  | nil => exact absurd rfl h
  | cons a as ih =>
    by_cases ha : P a = true
    · simp only [List.cons_append, List.dropWhile_cons, ha, if_true]
      simp only [List.dropWhile_cons, ha, if_true] at h
      exact ih h
    · have ha' : P a = false := by simpa using ha
      simp [List.dropWhile_cons, ha']

theorem dropWhile_eq_nil_all {α : Type} (P : α → Bool) {x : List α}
    (h : ∀ a ∈ x, P a = true) : x.dropWhile P = [] := by
  induction x with
  | nil => rfl
  | cons a as ih =>
    have ha : P a = true := h a (by simp)
    simp only [List.dropWhile_cons, ha, if_true]
    exact ih (fun b hb => h b (by simp [hb]))

theorem dropWhile_ne_nil_exists {α : Type} (P : α → Bool) {x : List α}
    {a : α} (hm : a ∈ x) (ha : P a = false) : x.dropWhile P ≠ [] := by
  intro hnil
  induction x with
  | nil => simp at hm
  | cons b bs ih =>
    by_cases hb : P b = true
    · simp only [List.dropWhile_cons, hb, if_true] at hnil
      rcases List.mem_cons.mp hm with h1 | h1
      · rw [h1] at ha; rw [hb] at ha; exact absurd ha (by simp)
      · exact ih h1 hnil
    · have hb' : P b = false := by simpa using hb
      simp [List.dropWhile_cons, hb'] at hnil

theorem mem_of_mem_dropWhile {α : Type} (P : α → Bool) {x : List α} {a : α}
    (h : a ∈ x.dropWhile P) : a ∈ x :=
  (List.dropWhile_sublist P (l := x)).mem h

theorem takeWhile_append_stop {α : Type} (P : α → Bool) (x : List α) {c : α}
    (y : List α) (hc : P c = false) :
    (x ++ c :: y).takeWhile P = x.takeWhile P := by
  induction x with
  | nil => simp [List.takeWhile_cons, hc]
  | cons a as ih =>
    by_cases ha : P a = true
    · simp [List.takeWhile_cons, ha, ih]
    · have ha' : P a = false := by simpa using ha
      simp [List.takeWhile_cons, ha']

theorem takeWhile_all {α : Type} (P : α → Bool) {x : List α}
    (h : ∀ a ∈ x, P a = true) : x.takeWhile P = x := by
  induction x with
  | nil => rfl
  | cons a as ih =>
    have ha : P a = true := h a (by simp)
    simp only [List.takeWhile_cons, ha, if_true, List.cons.injEq, true_and]
    exact ih (fun b hb => h b (by simp [hb]))

theorem takeWhile_append_all {α : Type} (P : α → Bool) {x : List α} (y : List α)
    (h : ∀ a ∈ x, P a = true) : (x ++ y).takeWhile P = x ++ y.takeWhile P := by
  induction x with
  | nil => rfl
  | cons a as ih =>
    have ha : P a = true := h a (by simp)
    simp only [List.cons_append, List.takeWhile_cons, ha, if_true, List.cons.injEq,
      true_and]
    exact ih (fun b hb => h b (by simp [hb]))

/-! ## Trailing trim lemmas -/

theorem dropTrail_cons (c : Char) (l : List Char) :
    dropTrailWs (c :: l) =
      if (dropTrailWs l).isEmpty then (if isJsWs c then [] else [c])
      else c :: dropTrailWs l := rfl

theorem dropTrail_cons_not_ws {c : Char} (h : isJsWs c = false) (l : List Char) :
    dropTrailWs (c :: l) = c :: dropTrailWs l := by
  rw [dropTrail_cons]
  by_cases he : (dropTrailWs l).isEmpty = true
  · rw [if_pos he, if_neg (by simp [h])]
    have : dropTrailWs l = [] := by simpa [List.isEmpty_iff] using he
    rw [this]
  · rw [if_neg he]

theorem mem_dropTrail {c : Char} {l : List Char} (h : c ∈ dropTrailWs l) : c ∈ l := by
  induction l with
  | nil => simp [dropTrailWs] at h
  | cons a as ih =>
    rw [dropTrail_cons] at h
    by_cases he : (dropTrailWs as).isEmpty = true
    · rw [if_pos he] at h
      by_cases hw : isJsWs a = true
      · simp [hw] at h
      · rw [if_neg hw] at h
        simp only [List.mem_singleton] at h
        simp [h]
    · rw [if_neg he] at h
      rcases List.mem_cons.mp h with h1 | h1
      · simp [h1]
      · exact List.mem_cons_of_mem _ (ih h1)

theorem dropTrail_append (x y : List Char) :
    dropTrailWs (x ++ y) =
      if (dropTrailWs y).isEmpty then dropTrailWs x else x ++ dropTrailWs y := by
  induction x with
  | nil =>
    by_cases he : (dropTrailWs y).isEmpty = true
    · have : dropTrailWs y = [] := by simpa [List.isEmpty_iff] using he
      simp [he, this, dropTrailWs]
    · simp [he]
  | cons a as ih =>
    rw [List.cons_append, dropTrail_cons, ih]
    by_cases he : (dropTrailWs y).isEmpty = true
    · rw [if_pos he, if_pos he]
      exact (dropTrail_cons a as).symm
    · rw [if_neg he, if_neg he]
      have hne : (as ++ dropTrailWs y).isEmpty = true → False := by
        intro hh
        have : dropTrailWs y ≠ [] := by
          intro h0
          rw [h0] at he
          simp at he
        rcases List.append_eq_nil.mp (by simpa [List.isEmpty_iff] using hh) with ⟨_, h2⟩
        exact this h2
      rw [if_neg hne]
      simp

/-! ## splitAtFirst lemmas -/

theorem splitAtFirst_append {ch : Char} {x : List Char} (y : List Char)
    (h : ch ∉ x) : splitAtFirst ch (x ++ ch :: y) = some (x, y) := by
  induction x with
  | nil => simp [splitAtFirst]
  | cons a as ih =>
    have ha : a ≠ ch := fun hh => h (by simp [hh])
    have hn : ch ∉ as := fun hh => h (by simp [hh])
    rw [List.cons_append]
    show (if a = ch then some ([], as ++ ch :: y)
      else match splitAtFirst ch (as ++ ch :: y) with
        | some (p, q) => some (a :: p, q)
        | none => none) = some (a :: as, y)
    rw [if_neg ha, ih hn]

/-! ## Normalizer canonicalization -/

theorem canon_absorb_lead (l : List Char) :
    ((dropTrailWs (l.dropWhile isJsWs)).map jsLowerChar).dropWhile
      (fun c => !(isLowerAlnum c)) = normCanon l := by
  induction l with
  | nil => rfl
  | cons c cs ih =>
    by_cases hw : isJsWs c = true
    · rw [List.dropWhile_cons, if_pos hw, ih]
      unfold normCanon
      rw [dropTrail_cons]
      by_cases he : (dropTrailWs cs).isEmpty = true
      · rw [if_pos he, if_pos hw]
        have : dropTrailWs cs = [] := by simpa [List.isEmpty_iff] using he
        rw [this]
      · rw [if_neg he, List.map_cons, List.dropWhile_cons,
          if_pos (by simp [jsLower_of_ws hw, lowerAlnum_of_ws hw])]
    · rw [List.dropWhile_cons, if_neg hw]
      rfl

theorem normCore_eq_step4 (l : List Char) :
    normalizeEmailCore l = normStep4 (normCanon l) := by
  rw [show normalizeEmailCore l =
      normStep4 (((dropTrailWs (l.dropWhile isJsWs)).map jsLowerChar).dropWhile
        (fun c => !(isLowerAlnum c))) from rfl,
    canon_absorb_lead]

theorem dropTrail_lower_eq {v s : List Char}
    (h : v.map jsLowerChar = s.map jsLowerChar) :
    (dropTrailWs v).map jsLowerChar = (dropTrailWs s).map jsLowerChar := by
  induction v generalizing s with
  | nil =>
    have : s = [] := by simpa using h.symm
    rw [this]
  | cons a v' ih =>
    cases s with
    | nil => simp at h
    | cons b s' =>
      simp only [List.map_cons, List.cons.injEq] at h
      obtain ⟨h1, h2⟩ := h
      have ihm := ih h2
      have hie : (dropTrailWs v').isEmpty = (dropTrailWs s').isEmpty := by
        by_cases hv : (dropTrailWs v').isEmpty = true
        · have hvnil : dropTrailWs v' = [] := by simpa [List.isEmpty_iff] using hv
          rw [hvnil] at ihm
          have : dropTrailWs s' = [] := by simpa using ihm.symm
          simp [hvnil, this]
        · have hvne : dropTrailWs v' ≠ [] := by simpa [List.isEmpty_iff] using hv
          have hsne : dropTrailWs s' ≠ [] := by
            intro hh
            rw [hh] at ihm
            exact hvne (by simpa using ihm)
          cases hvl : dropTrailWs v' with
          | nil => exact absurd hvl hvne
          | cons p ps =>
            cases hsl : dropTrailWs s' with
            | nil => exact absurd hsl hsne
            | cons q qs => simp
      have hws : isJsWs a = isJsWs b := by
        rw [← ws_jsLower a, ← ws_jsLower b, h1]
      rw [dropTrail_cons, dropTrail_cons, ← hie]
      by_cases he : (dropTrailWs v').isEmpty = true
      · rw [if_pos he, if_pos he, ← hws]
        by_cases hw : isJsWs a = true
        · rw [if_pos hw, if_pos hw]
        · rw [if_neg hw, if_neg hw]
          simp [h1]
      · rw [if_neg he, if_neg he]
        simp only [List.map_cons, List.cons.injEq]
        exact ⟨h1, ihm⟩

theorem normCanon_lower_eq {v s : List Char}
    (h : v.map jsLowerChar = s.map jsLowerChar) : normCanon v = normCanon s := by
  unfold normCanon
  rw [dropTrail_lower_eq h]

theorem normCanon_leadJunk {p : List Char} (s : List Char)
    (hp : ∀ c ∈ p, isAsciiAlnum c = false) : normCanon (p ++ s) = normCanon s := by
  unfold normCanon
  rw [dropTrail_append]
  by_cases he : (dropTrailWs s).isEmpty = true
  · rw [if_pos he]
    have hs : dropTrailWs s = [] := by simpa [List.isEmpty_iff] using he
    rw [hs]
    apply dropWhile_eq_nil_all
    intro x hx
    rcases List.mem_map.mp hx with ⟨c, hc, hcl⟩
    rw [← hcl]
    simp [lowerAlnum_jsLower_not_alnum (hp c (mem_dropTrail hc))]
  · rw [if_neg he, List.map_append]
    apply dropWhile_append_all
    intro x hx
    rcases List.mem_map.mp hx with ⟨c, hc, hcl⟩
    rw [← hcl]
    simp [lowerAlnum_jsLower_not_alnum (hp c hc)]

theorem jsLower_at : jsLowerChar '@' = '@' := by decide

theorem jsLower_plus : jsLowerChar '+' = '+' := by decide

theorem normStep4_split_some {e2 loc dom : List Char}
    (h : splitAtFirst '@' e2 = some (loc, dom)) :
    normStep4 e2 =
      if loc.isEmpty then e2
      else loc.takeWhile (fun c => c != '+') ++ '@' :: dom := by
  unfold normStep4
  rw [h]

theorem norm_plusTag {loc t dom : List Char}
    (ha : ∃ c ∈ loc, isAsciiAlnum c = true) (h1 : '@' ∉ loc) (h2 : '@' ∉ t) :
    normalizeEmailCore (loc ++ '+' :: (t ++ '@' :: dom)) =
      normalizeEmailCore (loc ++ '@' :: dom) := by
  rw [normCore_eq_step4, normCore_eq_step4]
  have hAtWs : isJsWs '@' = false := by decide
  have hPlusWs : isJsWs '+' = false := by decide
  have f3 : dropTrailWs (t ++ '@' :: dom) = t ++ '@' :: dropTrailWs dom := by
    rw [dropTrail_append, dropTrail_cons_not_ws hAtWs, if_neg (by simp)]
  have f2 : dropTrailWs (loc ++ '@' :: dom) = loc ++ '@' :: dropTrailWs dom := by
    rw [dropTrail_append, dropTrail_cons_not_ws hAtWs, if_neg (by simp)]
  have f5 : dropTrailWs (loc ++ '+' :: (t ++ '@' :: dom)) =
      loc ++ '+' :: (t ++ '@' :: dropTrailWs dom) := by
    rw [dropTrail_append, dropTrail_cons_not_ws hPlusWs, f3, if_neg (by simp)]
  have hex : ∃ x ∈ loc.map jsLowerChar, (!(isLowerAlnum x)) = false := by
    rcases ha with ⟨c, hc, hcal⟩
    exact ⟨jsLowerChar c, List.mem_map_of_mem _ hc,
      by simp [lowerAlnum_jsLower_alnum hcal]⟩
  rcases hex with ⟨x, hxm, hxp⟩
  have hAne : (loc.map jsLowerChar).dropWhile (fun c => !(isLowerAlnum c)) ≠ [] :=
    dropWhile_ne_nil_exists _ hxm hxp
  have hA_at : '@' ∉ (loc.map jsLowerChar).dropWhile (fun c => !(isLowerAlnum c)) := by
    intro hy
    rcases List.mem_map.mp (mem_of_mem_dropWhile _ hy) with ⟨c, hc, hcl⟩
    exact h1 (jsLower_eq_at hcl ▸ hc)
  have hT_at : '@' ∉ t.map jsLowerChar := by
    intro hy
    rcases List.mem_map.mp hy with ⟨c, hc, hcl⟩
    exact h2 (jsLower_eq_at hcl ▸ hc)
  have cs : normCanon (loc ++ '@' :: dom) =
      ((loc.map jsLowerChar).dropWhile (fun c => !(isLowerAlnum c))) ++
        '@' :: (dropTrailWs dom).map jsLowerChar := by
    unfold normCanon
    rw [f2, List.map_append, List.map_cons, jsLower_at,
      dropWhile_append_ne_nil _ _ hAne]
  have cv : normCanon (loc ++ '+' :: (t ++ '@' :: dom)) =
      ((loc.map jsLowerChar).dropWhile (fun c => !(isLowerAlnum c))) ++
        '+' :: (t.map jsLowerChar ++ '@' :: (dropTrailWs dom).map jsLowerChar) := by
    unfold normCanon
    rw [f5, List.map_append, List.map_cons, List.map_append, List.map_cons,
      jsLower_at, jsLower_plus, dropWhile_append_ne_nil _ _ hAne]
  rw [cs, cv]
  set A := (loc.map jsLowerChar).dropWhile (fun c => !(isLowerAlnum c)) with hAdef
  have hsplit_s :
      splitAtFirst '@' (A ++ '@' :: (dropTrailWs dom).map jsLowerChar) =
        some (A, (dropTrailWs dom).map jsLowerChar) :=
    splitAtFirst_append _ hA_at
  have hno : '@' ∉ A ++ '+' :: t.map jsLowerChar := by
    intro hy
    rcases List.mem_append.mp hy with hy1 | hy1
    · exact hA_at hy1
    · rcases List.mem_cons.mp hy1 with hy2 | hy2
      · exact absurd hy2 (by decide)
      · exact hT_at hy2
  have hrearr :
      A ++ '+' :: (t.map jsLowerChar ++ '@' :: (dropTrailWs dom).map jsLowerChar) =
        (A ++ '+' :: t.map jsLowerChar) ++
          '@' :: (dropTrailWs dom).map jsLowerChar := by
    simp [List.append_assoc]
  have hsplit_v :
      splitAtFirst '@'
        (A ++ '+' :: (t.map jsLowerChar ++ '@' :: (dropTrailWs dom).map jsLowerChar)) =
        some (A ++ '+' :: t.map jsLowerChar, (dropTrailWs dom).map jsLowerChar) := by
    rw [hrearr]
    exact splitAtFirst_append _ hno
  rw [normStep4_split_some hsplit_s, normStep4_split_some hsplit_v]
  have hAe : ¬(A.isEmpty = true) := by
    intro hh
    exact hAne (List.isEmpty_iff.mp hh)
  have hAPe : ¬((A ++ '+' :: t.map jsLowerChar).isEmpty = true) := by
    intro hh
    rcases List.append_eq_nil.mp (List.isEmpty_iff.mp hh) with ⟨_, h4⟩
    exact List.cons_ne_nil _ _ h4
  rw [if_neg hAe, if_neg hAPe]
  rw [takeWhile_append_stop _ A _ (by decide)]

theorem normCore_variantStep {s v : List Char} (h : EmailVariantStep s v) :
    normalizeEmailCore s = normalizeEmailCore v := by
  cases h with
  | caseChange s v hmap =>
    rw [normCore_eq_step4, normCore_eq_step4, normCanon_lower_eq hmap]
  | leadJunk p s hne hp =>
    rw [normCore_eq_step4, normCore_eq_step4, normCanon_leadJunk s hp]
  | plusTag loc t dom ha h1 h2 =>
    exact (norm_plusTag ha h1 h2).symm

theorem normCore_variant {s v : List Char} (h : EmailVariant s v) :
    normalizeEmailCore s = normalizeEmailCore v := by
  induction h with
  | refl s => rfl
  | step hstep _ ih => exact (normCore_variantStep hstep).trans ih

theorem hashEmailCore_congr {key : List Nat} {s v : List Char}
    (h : normalizeEmailCore s = normalizeEmailCore v) :
    hashEmailCore key s = hashEmailCore key v := by
  unfold hashEmailCore
  rw [h]

/-! ## Grounding of the hash embedding on published test vectors -/

theorem sha256_abc_vector :
    String.mk (hexOfBytes (sha256Bytes (asciiBytes "abc".data))) =
      "ba7816bf8f01cfea414140de5dae2223b00361a396177a9cb410ff61f20015ad" := by
  decide

/-! ## Claim C3: hash invariance under normalization variants -/

/-- Claim C3 counterexample: the claim quantifies over insertion of a
plus tag anywhere in the local part before the at-sign.  Inserting the
tag in the middle of the local part of john at example.com produces
jo+taghn at example.com, which normalizes to jo at example.com and hashes
differently under the all-zero 32-byte key, so the claim as stated is
false. -/
theorem claim_c3_counterexample :
    ClaimVariantStep "john@example.com".data "jo+taghn@example.com".data ∧
    zeroKey.length = 32 ∧
    hashEmail zeroKey "john@example.com" ≠ hashEmail zeroKey "jo+taghn@example.com" := by
  refine ⟨?_, by decide, by decide⟩
  have e1 : "john@example.com".data = "jo".data ++ "hn@example.com".data := by decide
  have e2 : "jo+taghn@example.com".data =
      "jo".data ++ '+' :: ("tag".data ++ "hn@example.com".data) := by decide
  rw [e1, e2]
  exact ClaimVariantStep.plusTagIns _ _ _ (by decide) (by decide) (by decide)
    (by decide) (by decide)

/-- Claim C3 (amended): for every 32-byte key, hashEmail is invariant
under any composition of ASCII case changes, prepended runs of
non-alphanumeric characters, and plus tags inserted at the end of the
local part, immediately before the first at-sign, provided the local
part contains an alphanumeric character and neither it nor the tag
contains an at-sign. -/
theorem claim_c3_amended (key : List Nat) (s v : List Char)
    (_hkey : key.length = 32) (h : EmailVariant s v) :
    hashEmailCore key s = hashEmailCore key v :=
  hashEmailCore_congr (normCore_variant h)

/-- Witness for the amended C3: the spec instance: space tilde John plus
promo at Example.COM is reached from john at example.com by appending the
promo tag, changing case, and prepending the junk run, and the two hash
identically under the zero key. -/
theorem claim_c3_witness :
    zeroKey.length = 32 ∧
    EmailVariant "john@example.com".data " ~John+promo@Example.COM".data ∧
    hashEmail zeroKey "john@example.com" = hashEmail zeroKey " ~John+promo@Example.COM" := by
  have e1 : "john@example.com".data = "john".data ++ '@' :: "example.com".data := by
    decide
  have e2 : "john+promo@example.com".data =
      "john".data ++ '+' :: ("promo".data ++ '@' :: "example.com".data) := by decide
  have e3 : " ~John+promo@Example.COM".data =
      " ~".data ++ "John+promo@Example.COM".data := by decide
  have st1 : EmailVariantStep "john@example.com".data "john+promo@example.com".data := by
    rw [e1, e2]
    exact EmailVariantStep.plusTag _ _ _ (by decide) (by decide) (by decide)
  have st2 : EmailVariantStep "john+promo@example.com".data
      "John+promo@Example.COM".data :=
    EmailVariantStep.caseChange _ _ (by decide)
  have st3 : EmailVariantStep "John+promo@Example.COM".data
      " ~John+promo@Example.COM".data := by
    rw [e3]
    exact EmailVariantStep.leadJunk _ _ (by decide) (by decide)
  have hchain : EmailVariant "john@example.com".data " ~John+promo@Example.COM".data :=
    EmailVariant.step st1 (EmailVariant.step st2
      (EmailVariant.step st3 (EmailVariant.refl _)))
  exact ⟨by decide, hchain, claim_c3_amended zeroKey _ _ (by decide) hchain⟩

/-! ## Digest length and character facts -/

theorem hexOfBytes_cons (b : Nat) (bs : List Nat) :
    hexOfBytes (b :: bs) =
      hexDigitChar (b / 16 % 16) :: hexDigitChar (b % 16) :: hexOfBytes bs := rfl

theorem length_hexOfBytes (bs : List Nat) : (hexOfBytes bs).length = 2 * bs.length := by
  induction bs with
  | nil => rfl
  | cons b bs ih =>
    rw [hexOfBytes_cons]
    simp only [List.length_cons, ih]
    omega

theorem length_sha256Bytes (msg : List Nat) : (sha256Bytes msg).length = 32 := by
  simp [sha256Bytes, be4]

theorem length_hmacSha256 (key msg : List Nat) : (hmacSha256 key msg).length = 32 :=
  length_sha256Bytes _

theorem length_hashEmailCore (key : List Nat) (l : List Char) :
    (hashEmailCore key l).data.length = 64 := by
  show (hexOfBytes (hmacSha256 key (asciiBytes (normalizeEmailCore l)))).length = 64
  rw [length_hexOfBytes, length_hmacSha256]

theorem hexDigit_lt_ne_slash : ∀ n < 16, hexDigitChar n ≠ '/' := by decide

theorem hexOfBytes_ne_slash (bs : List Nat) : ∀ c ∈ hexOfBytes bs, c ≠ '/' := by
  induction bs with
  | nil => intro c hc; simp [hexOfBytes] at hc
  | cons b bs ih =>
    intro c hc
    rw [hexOfBytes_cons] at hc
    rcases List.mem_cons.mp hc with h1 | hc2
    · exact h1 ▸ hexDigit_lt_ne_slash _ (by omega)
    · rcases List.mem_cons.mp hc2 with h2 | h3
      · exact h2 ▸ hexDigit_lt_ne_slash _ (by omega)
      · exact ih c h3

/-! ## Claim C1: shard routing -/

theorem str_data_append (a b : String) : (a ++ b).data = a.data ++ b.data := rfl

theorem writeEvents003_cons (key : List Nat) (shardDir source : String)
    (l : List Char) (ls : List (List Char)) :
    writeEvents003 key shardDir source (l :: ls) =
      match processLine003 key source l with
      | some rec =>
        (shardFilePath shardDir (String.mk (rec.email_hash.data.take 4)), rec) ::
          writeEvents003 key shardDir source ls
      | none => writeEvents003 key shardDir source ls := rfl

theorem mem_writeEvents003 {key : List Nat} {shardDir source : String}
    {lines : List (List Char)} {pr : String × Record}
    (h : pr ∈ writeEvents003 key shardDir source lines) :
    ∃ line ∈ lines, ∃ rec, processLine003 key source line = some rec ∧
      pr = (shardFilePath shardDir (String.mk (rec.email_hash.data.take 4)), rec) := by
  induction lines with
  | nil => simp [writeEvents003] at h
  | cons l ls ih =>
    rw [writeEvents003_cons] at h
    cases hp : processLine003 key source l with
    | none =>
      rw [hp] at h
      rcases ih h with ⟨line, hm, rec, hrec, hpr⟩
      exact ⟨line, List.mem_cons_of_mem _ hm, rec, hrec, hpr⟩
    | some rec =>
      rw [hp] at h
      rcases List.mem_cons.mp h with h1 | h1
      · exact ⟨l, List.mem_cons_self _ _, rec, hp, h1⟩
      · rcases ih h1 with ⟨line, hm, rec2, hrec, hpr⟩
        exact ⟨line, List.mem_cons_of_mem _ hm, rec2, hrec, hpr⟩

theorem processLine003_eq (key : List Nat) (source : String) (str : List Char) :
    processLine003 key source str =
      if str.isEmpty then none
      else
        match splitAtFirst ':' str with
        | none => none
        | some (a, b) =>
          if a.isEmpty then none
          else if (jsTrim (a.map jsLowerChar)).contains '@' then
            some { email_hash := hashEmailCore key a, password := String.mk b,
                   is_hash := (detectHashCore b).1,
                   hash_type := (detectHashCore b).2,
                   email := String.mk (jsTrim (a.map jsLowerChar)),
                   source := source }
          else none := rfl

theorem processLine003_hash {key : List Nat} {source : String} {str : List Char}
    {rec : Record} (h : processLine003 key source str = some rec) :
    ∃ rawEmail, rec.email_hash = hashEmailCore key rawEmail := by
  rw [processLine003_eq] at h
  by_cases he : str.isEmpty = true
  · rw [if_pos he] at h
    exact absurd h (by simp)
  · rw [if_neg he] at h
    cases hsp : splitAtFirst ':' str with
    | none =>
      rw [hsp] at h
      exact absurd h (by simp)
    | some pair =>
      obtain ⟨a, b⟩ := pair
      rw [hsp] at h
      have h2 : (if a.isEmpty then (none : Option Record)
          else if (jsTrim (a.map jsLowerChar)).contains '@' then
            some { email_hash := hashEmailCore key a, password := String.mk b,
                   is_hash := (detectHashCore b).1,
                   hash_type := (detectHashCore b).2,
                   email := String.mk (jsTrim (a.map jsLowerChar)),
                   source := source }
          else none) = some rec := h
      by_cases hae : a.isEmpty = true
      · rw [if_pos hae] at h2
        exact absurd h2 (by simp)
      · rw [if_neg hae] at h2
        by_cases hc : (jsTrim (a.map jsLowerChar)).contains '@' = true
        · rw [if_pos hc] at h2
          exact ⟨a, by cases h2; rfl⟩
        · rw [if_neg hc] at h2
          exact absurd h2 (by simp)

theorem fileStem_shardPath (shardDir : String) (pre : List Char)
    (hns : ∀ c ∈ pre, c ≠ '/') :
    fileStemOf (shardFilePath shardDir (String.mk pre)) = String.mk pre := by
  have hrev : (shardFilePath shardDir (String.mk pre)).data.reverse =
      ".jsonl".data.reverse ++ (pre.reverse ++
        '/' :: (pre.take 2).reverse ++ '/' :: shardDir.data.reverse) := by
    show (shardDir ++ "/" ++ String.mk ((String.mk pre).data.take 2) ++ "/" ++
      String.mk pre ++ ".jsonl").data.reverse = _
    simp [str_data_append, List.reverse_append, List.append_assoc]
  have hjson : ∀ c ∈ ".jsonl".data.reverse, (c != '/') = true := by decide
  have hpre : ∀ c ∈ pre.reverse, (c != '/') = true := by
    intro c hc
    simpa using hns c (List.mem_reverse.mp hc)
  have htw : ((shardFilePath shardDir (String.mk pre)).data.reverse).takeWhile
      (fun c => c != '/') = ".jsonl".data.reverse ++ pre.reverse := by
    rw [hrev]
    rw [takeWhile_append_all _ _ hjson]
    have hshape : pre.reverse ++ '/' :: (pre.take 2).reverse ++
        '/' :: shardDir.data.reverse =
        pre.reverse ++ '/' :: ((pre.take 2).reverse ++ '/' :: shardDir.data.reverse) := by
      simp [List.append_assoc]
    rw [hshape, takeWhile_append_stop _ _ _ (by decide)]
    rw [takeWhile_all _ hpre]
  have hbase : (((shardFilePath shardDir (String.mk pre)).data.reverse).takeWhile
      (fun c => c != '/')).reverse = pre ++ ".jsonl".data := by
    rw [htw]
    simp
  show String.mk (((((shardFilePath shardDir (String.mk pre)).data.reverse).takeWhile
      (fun c => c != '/')).reverse).take
      (((((shardFilePath shardDir (String.mk pre)).data.reverse).takeWhile
      (fun c => c != '/')).reverse).length - 6)) = String.mk pre
  rw [hbase]
  have hlen : (pre ++ ".jsonl".data).length = pre.length + 6 := by simp
  rw [hlen]
  have h6 : pre.length + 6 - 6 = pre.length := by omega
  rw [h6, List.take_left]

/-- Claim C1: every record written by the inline ingestor goes to the
shard file whose subdirectory is the first two characters and whose stem
is the first four characters of the record email hash; consequently the
stem of the target file always equals the first four characters of the
email hash of the record appended there. -/
theorem claim_c1_shard_routing (key : List Nat) (shardDir source : String)
    (lines : List (List Char)) (path : String) (rec : Record)
    (h : (path, rec) ∈ writeEvents003 key shardDir source lines) :
    path = shardDir ++ "/" ++ String.mk (rec.email_hash.data.take 2) ++ "/" ++
        String.mk (rec.email_hash.data.take 4) ++ ".jsonl" ∧
    fileStemOf path = String.mk (rec.email_hash.data.take 4) := by
  rcases mem_writeEvents003 h with ⟨line, _hline, r, hr, hpr⟩
  injection hpr with hpath hrec
  subst hrec
  subst hpath
  rcases processLine003_hash hr with ⟨raw, hhash⟩
  have hslash : ∀ c ∈ rec.email_hash.data.take 4, c ≠ '/' := by
    intro c hc
    have hm : c ∈ rec.email_hash.data := List.take_subset _ _ hc
    rw [hhash] at hm
    exact hexOfBytes_ne_slash _ c hm
  have ht : ((String.mk (rec.email_hash.data.take 4)).data.take 2) =
      rec.email_hash.data.take 2 := by
    show (rec.email_hash.data.take 4).take 2 = rec.email_hash.data.take 2
    rw [List.take_take]
    norm_num
  constructor
  · show shardDir ++ "/" ++ String.mk ((String.mk (rec.email_hash.data.take 4)).data.take 2) ++
      "/" ++ String.mk (rec.email_hash.data.take 4) ++ ".jsonl" = _
    rw [ht]
  · exact fileStem_shardPath shardDir _ hslash

/-- Witness for C1: the concrete line a at b.cd colon x under the zero
key is routed to shards slash b2 slash b281.jsonl, and the stem b281 is
the first four characters of the record email hash. -/
theorem claim_c1_witness :
    ((c1path, c1rec) ∈ writeEvents003 zeroKey "/shards" "/in/a.txt" [c1line]) ∧
    c1path = "/shards" ++ "/" ++ String.mk (c1rec.email_hash.data.take 2) ++ "/" ++
      String.mk (c1rec.email_hash.data.take 4) ++ ".jsonl" ∧
    fileStemOf c1path = String.mk (c1rec.email_hash.data.take 4) := by
  have hm : (c1path, c1rec) ∈ writeEvents003 zeroKey "/shards" "/in/a.txt" [c1line] := by
    decide
  exact ⟨hm, (claim_c1_shard_routing zeroKey "/shards" "/in/a.txt" [c1line]
      c1path c1rec hm).1,
    (claim_c1_shard_routing zeroKey "/shards" "/in/a.txt" [c1line]
      c1path c1rec hm).2⟩

/-! ## Claims C2 and C5: the bounded LRU stream cache -/

theorem lruGet_below {limit : Nat} {p : String} {s : List String}
    (hlt : s.length < limit) :
    lruGet limit p s =
      if p ∈ s then some ⟨p :: s.erase p, none, false⟩
      else some ⟨p :: s, none, true⟩ := by
  unfold lruGet lruEvict
  rw [if_pos hlt]

theorem lruGet_at_capacity {limit : Nat} {p : String} {s : List String}
    (hge : ¬s.length < limit) {q : String} (hlast : s.getLast? = some q) :
    lruGet limit p s =
      if p ∈ s.dropLast then some ⟨p :: s.dropLast.erase p, some q, false⟩
      else some ⟨p :: s.dropLast, some q, true⟩ := by
  unfold lruGet lruEvict
  rw [if_neg hge, hlast]

theorem lruGet_fault {limit : Nat} {p : String} {s : List String}
    (hge : ¬s.length < limit) (hlast : s.getLast? = none) :
    lruGet limit p s = none := by
  unfold lruGet lruEvict
  rw [if_neg hge, hlast]

theorem lruGet_length {limit : Nat} {p : String} {s : List String} {r : GetResult}
    (h : lruGet limit p s = some r) (hs : s.length ≤ limit) :
    r.state.length ≤ limit := by
  by_cases hlt : s.length < limit
  · rw [lruGet_below hlt] at h
    by_cases hm : p ∈ s
    · rw [if_pos hm] at h
      obtain rfl := Option.some.inj h
      have h1 : (s.erase p).length = s.length - 1 := List.length_erase_of_mem hm
      have h2 : 0 < s.length := List.length_pos.mpr (List.ne_nil_of_mem hm)
      simp only [List.length_cons, h1]
      omega
    · rw [if_neg hm] at h
      obtain rfl := Option.some.inj h
      simp only [List.length_cons]
      omega
  · cases hlast : s.getLast? with
    | none =>
      rw [lruGet_fault hlt hlast] at h
      cases h
    | some q =>
      have hne : s ≠ [] := by
        intro hh
        rw [hh] at hlast
        simp at hlast
      have hpos : 0 < s.length := List.length_pos.mpr hne
      rw [lruGet_at_capacity hlt hlast] at h
      by_cases hm : p ∈ s.dropLast
      · rw [if_pos hm] at h
        obtain rfl := Option.some.inj h
        have h1 : (s.dropLast.erase p).length = s.dropLast.length - 1 :=
          List.length_erase_of_mem hm
        have h2 : 0 < s.dropLast.length := List.length_pos.mpr (List.ne_nil_of_mem hm)
        simp only [List.length_cons, h1, List.length_dropLast] at h2 ⊢
        omega
      · rw [if_neg hm] at h
        obtain rfl := Option.some.inj h
        simp only [List.length_cons, List.length_dropLast]
        omega

/-- Claim C2: every cache order reachable by any sequence of get and
closeAll operations has at most limit entries, and whenever a get call
evicts a writer, the closed writer is the least recently used one, the
tail of the order. -/
theorem claim_c2_lru_bound :
    (∀ (limit : Nat) (s : List String), LruReach limit s → s.length ≤ limit) ∧
    (∀ (limit : Nat) (p : String) (s : List String) (r : GetResult) (q : String),
      lruGet limit p s = some r → r.evicted = some q → s.getLast? = some q) := by
  constructor
  · intro limit s h
    induction h with
    | init => simp
    | get _ hg ih => exact lruGet_length hg ih
    | closeAll _ => simp
  · intro limit p s r q hg he
    by_cases hlt : s.length < limit
    · rw [lruGet_below hlt] at hg
      by_cases hm : p ∈ s
      · rw [if_pos hm] at hg
        obtain rfl := Option.some.inj hg
        simp at he
      · rw [if_neg hm] at hg
        obtain rfl := Option.some.inj hg
        simp at he
    · cases hlast : s.getLast? with
      | none =>
        rw [lruGet_fault hlt hlast] at hg
        cases hg
      | some q2 =>
        rw [lruGet_at_capacity hlt hlast] at hg
        by_cases hm : p ∈ s.dropLast
        · rw [if_pos hm] at hg
          obtain rfl := Option.some.inj hg
          have : q2 = q := by simpa using he
          rw [← this]
        · rw [if_neg hm] at hg
          obtain rfl := Option.some.inj hg
          have : q2 = q := by simpa using he
          rw [← this]

/-- Witness for C2: the state after opening one writer under limit one is
within the bound, and the eviction triggered by a get on a full cache
closes the tail entry. -/
theorem claim_c2_witness :
    ((["a"] : List String).length ≤ 1) ∧
    ((["b", "a"] : List String).getLast? = some "a") := by
  have h1 : LruReach 1 ["a"] :=
    LruReach.get LruReach.init
      (show lruGet 1 "a" [] = some ⟨["a"], none, true⟩ by decide)
  exact ⟨claim_c2_lru_bound.1 1 ["a"] h1,
    claim_c2_lru_bound.2 1 "x" ["b", "a"] ⟨["x", "b"], some "a", true⟩ "a"
      (by decide) rfl⟩

/-- Claim C5 counterexample: get on a cache at capacity that already
contains the requested prefix still evicts: with limit one and the cache
holding exactly the prefix a, get of a closes the writer for a and
creates a fresh one, while the claim requires the existing writer to be
returned with no eviction. -/
theorem claim_c5_counterexample :
    ("a" ∈ (["a"] : List String)) ∧
    lruGet 1 "a" ["a"] = some ⟨["a"], some "a", true⟩ := by
  exact ⟨by decide, by decide⟩

/-- Claim C5 (amended): the second-variant get runs eviction first,
unconditionally.  Below capacity, get of a present prefix moves it to
the front and reuses its writer with no eviction; at capacity, get
always closes the least recently used writer, the tail, whether or not
the requested prefix is present. -/
theorem claim_c5_amended :
    (∀ (limit : Nat) (p : String) (s : List String), s.length < limit → p ∈ s →
      lruGet limit p s = some ⟨p :: s.erase p, none, false⟩) ∧
    (∀ (limit : Nat) (p : String) (s : List String), limit ≤ s.length → s ≠ [] →
      (lruGet limit p s).map GetResult.evicted = some s.getLast?) := by
  constructor
  · intro limit p s hlt hm
    rw [lruGet_below hlt, if_pos hm]
  · intro limit p s hge hne
    have hnlt : ¬s.length < limit := by omega
    cases hlast : s.getLast? with
    | none =>
      cases s with
      | nil => exact absurd rfl hne
      | cons a as => simp at hlast
    | some q =>
      rw [lruGet_at_capacity hnlt hlast]
      by_cases hm : p ∈ s.dropLast
      · rw [if_pos hm]
        rfl
      · rw [if_neg hm]
        rfl

/-- Witness for the amended C5: a hit below capacity reuses the writer
with no eviction, and a get at capacity evicts the tail. -/
theorem claim_c5_witness :
    lruGet 3 "a" ["b", "a"] = some ⟨["a", "b"], none, false⟩ ∧
    (lruGet 2 "a" ["b", "a"]).map GetResult.evicted =
      some (["b", "a"] : List String).getLast? := by
  exact ⟨claim_c5_amended.1 3 "a" ["b", "a"] (by decide) (by decide),
    claim_c5_amended.2 2 "a" ["b", "a"] (by decide) (by decide)⟩

/-! ## Claim C10: writes after close are dropped -/

/-- Claim C10: once end has run, the writer is closed, and every
subsequent write returns a resolved promise while leaving the writer
unchanged: the line is not queued and the stream data is untouched, so
the record is silently dropped rather than raising an error. -/
theorem claim_c10_write_after_end (batchSize : Nat) (b : BatchWriter) (line : String) :
    (b.closed = true → bwWrite batchSize b line = (b, true)) ∧
    (bwEnd b).closed = true ∧
    bwWrite batchSize (bwEnd b) line = (bwEnd b, true) := by
  have hend : (bwEnd b).closed = true := by
    unfold bwEnd
    by_cases hc : b.closed = true
    · rw [if_pos hc]
      exact hc
    · rw [if_neg hc]
      unfold bwFlush
      by_cases hq : ({ b with closed := true, timerOn := false } : BatchWriter).queue.isEmpty = true
      · rw [if_pos hq]
      · rw [if_neg hq]
  refine ⟨?_, hend, ?_⟩
  · intro hc
    unfold bwWrite
    rw [if_pos hc]
  · unfold bwWrite
    rw [if_pos hend]

/-- Witness for C10: a concrete closed writer accepts a write as a
resolved no-op. -/
theorem claim_c10_witness :
    bwWrite 500 ⟨[], true, false, "", true⟩ "line" = (⟨[], true, false, "", true⟩, true) :=
  (claim_c10_write_after_end 500 ⟨[], true, false, "", true⟩ "line").1 rfl

/-! ## Claim C6: progress persistence -/

/-- Claim C6 counterexample: saveProgress persists the progress document
with a single direct writeFileSync to the progress file itself: the
trace is one write operation and contains no rename, so the write-temp
then rename atomicity stated by the claim does not hold. -/
theorem claim_c6_counterexample :
    saveProgressOps "/shards/ingest-progress.json" "doc" =
      [FsOp.write "/shards/ingest-progress.json" "doc"] ∧
    (saveProgressOps "/shards/ingest-progress.json" "doc").length = 1 ∧
    noRenames (saveProgressOps "/shards/ingest-progress.json" "doc") = true :=
  ⟨rfl, rfl, rfl⟩

/-- Claim C6 (amended): the worker does persist the progress document
after each of the two state changes of a processed file, but each
persistence is a single direct write of the serialized document to the
progress file path, with no temporary file and no rename, so a crash
mid-write can leave a partially written document on disk. -/
theorem claim_c6_amended (progressFile doc : String)
    (ser : List (String × String) → String) (ps : List (String × String))
    (file : String) :
    saveProgressOps progressFile doc = [FsOp.write progressFile doc] ∧
    workerFileOps progressFile ser ps file =
      [FsOp.write progressFile (ser (setState ps file "in-progress")),
       FsOp.write progressFile
         (ser (setState (setState ps file "in-progress") file "done"))] ∧
    noRenames (workerFileOps progressFile ser ps file) = true :=
  ⟨rfl, rfl, rfl⟩

/-! ## Claim C9: input file enumeration -/

mutual

theorem findTxtEnt_eq (d : String) (e : FsEntry) :
    findTxtEnt d e = (entFiles d e).filterMap
      (fun pr => if jsEndsWith pr.2 ".txt" then some pr.1 else none) :=
  match e with
  | .file n => by
    by_cases ht : jsEndsWith n ".txt" = true
    · simp [findTxtEnt, entFiles, List.filterMap, ht]
    · simp only [findTxtEnt, entFiles, List.filterMap]
      rw [if_neg ht, if_neg ht]
  | .dir n es => by
    show findTxtFiles (pathJoin d n) es = _
    exact findTxtFiles_eq (pathJoin d n) es

theorem findTxtFiles_eq (d : String) (es : List FsEntry) :
    findTxtFiles d es = (dirFiles d es).filterMap
      (fun pr => if jsEndsWith pr.2 ".txt" then some pr.1 else none) :=
  match es with
  | [] => rfl
  | e :: es' => by
    show findTxtEnt d e ++ findTxtFiles d es' = _
    rw [show dirFiles d (e :: es') = entFiles d e ++ dirFiles d es' from rfl,
      List.filterMap_append, findTxtEnt_eq d e, findTxtFiles_eq d es']

end

/-- Claim C9 counterexample: the walk keeps a file only when its name
ends with the lowercase txt extension, case-sensitively: a directory
containing only X.TXT yields an empty work list, while the claim
requires X.TXT to be included. -/
theorem claim_c9_counterexample :
    findTxtFiles "/in" [FsEntry.file "X.TXT"] = [] ∧
    ["/in/X.TXT"] ≠ ([] : List String) :=
  ⟨by decide, by decide⟩

/-- Claim C9 (amended): the enumeration returns exactly the files under
the input root whose name ends with the four characters dot t x t,
matched case-sensitively, so a file named X.TXT is excluded. -/
theorem claim_c9_amended (d : String) (es : List FsEntry) :
    findTxtFiles d es = (dirFiles d es).filterMap
      (fun pr => if jsEndsWith pr.2 ".txt" then some pr.1 else none) ∧
    findTxtFiles "/in" [FsEntry.file "X.TXT", FsEntry.file "a.txt"] = ["/in/a.txt"] :=
  ⟨findTxtFiles_eq d es, by decide⟩

/-! ## Claims C4 and C7: parsing and record shape -/

theorem processLine006_eq (key : List Nat) (source : String) (line : List Char) :
    processLine006 key source line =
      if (extract006 line).1.isEmpty then none
      else if (normalizeEmailCore (extract006 line).1).contains '@' then
        some { email_hash := hashEmailCore key (normalizeEmailCore (extract006 line).1),
               password := String.mk (jsTrim (extract006 line).2),
               is_hash := (detectHashCore (jsTrim (extract006 line).2)).1,
               hash_type := (detectHashCore (jsTrim (extract006 line).2)).2,
               email := String.mk (normalizeEmailCore (extract006 line).1),
               source := source }
      else none := rfl

theorem processLine006_email {key : List Nat} {source : String} {line : List Char}
    {rec : Record} (h : processLine006 key source line = some rec) :
    rec.email = String.mk (normalizeEmailCore (extract006 line).1) ∧
    (normalizeEmailCore (extract006 line).1).contains '@' = true := by
  rw [processLine006_eq] at h
  by_cases he : (extract006 line).1.isEmpty = true
  · rw [if_pos he] at h
    exact absurd h (by simp)
  · rw [if_neg he] at h
    by_cases hc : (normalizeEmailCore (extract006 line).1).contains '@' = true
    · rw [if_pos hc] at h
      exact ⟨by cases h; rfl, hc⟩
    · rw [if_neg hc] at h
      exact absurd h (by simp)

theorem processLine003_email {key : List Nat} {source : String} {line : List Char}
    {a b : List Char} {rec : Record} (hsp : splitAtFirst ':' line = some (a, b))
    (h : processLine003 key source line = some rec) :
    rec.email = String.mk (jsTrim (a.map jsLowerChar)) := by
  rw [processLine003_eq] at h
  by_cases he : line.isEmpty = true
  · rw [if_pos he] at h
    exact absurd h (by simp)
  · rw [if_neg he, hsp] at h
    have h2 : (if a.isEmpty then (none : Option Record)
        else if (jsTrim (a.map jsLowerChar)).contains '@' then
          some { email_hash := hashEmailCore key a, password := String.mk b,
                 is_hash := (detectHashCore b).1,
                 hash_type := (detectHashCore b).2,
                 email := String.mk (jsTrim (a.map jsLowerChar)),
                 source := source }
        else none) = some rec := h
    by_cases hae : a.isEmpty = true
    · rw [if_pos hae] at h2
      exact absurd h2 (by simp)
    · rw [if_neg hae] at h2
      by_cases hc : (jsTrim (a.map jsLowerChar)).contains '@' = true
      · rw [if_pos hc] at h2
        cases h2
        rfl
      · rw [if_neg hc] at h2
        exact absurd h2 (by simp)

/-- Claim C4 counterexample: for the scenario input line, the inline
ingestor emits the record with email alice+news at example.com, which is
only the lowercased and trimmed raw email, not the fully normalized
alice at example.com required by the claim; the other fields match. -/
theorem claim_c4_counterexample :
    (processLine003 zeroKey "/in/a.txt" "Alice+news@Example.com:hunter2".data).map
        (fun r => (r.email, r.password, r.is_hash, r.hash_type)) =
      some ("alice+news@example.com", "hunter2", false, "plaintext") ∧
    normalizeEmail "Alice+news@Example.com" = "alice@example.com" ∧
    ("alice+news@example.com" : String) ≠ "alice@example.com" :=
  ⟨by decide, by decide, by decide⟩

/-- Claim C4 (amended): in the parse-and-hash variant every emitted
record carries the fully normalized email, and the scenario line yields
exactly the claimed record there; in the inline ingestor the email field
is only the first colon field lowercased and trimmed, with the plus tag
and leading junk kept. -/
theorem claim_c4_amended :
    (∀ (key : List Nat) (source : String) (line : List Char) (rec : Record),
      processLine006 key source line = some rec →
        rec.email = String.mk (normalizeEmailCore (extract006 line).1)) ∧
    ((processLine006 zeroKey "/in/a.txt" "Alice+news@Example.com:hunter2".data).map
        (fun r => (r.email, r.password, r.is_hash, r.hash_type)) =
      some ("alice@example.com", "hunter2", false, "plaintext")) ∧
    (∀ (key : List Nat) (source : String) (line a b : List Char) (rec : Record),
      splitAtFirst ':' line = some (a, b) →
      processLine003 key source line = some rec →
        rec.email = String.mk (jsTrim (a.map jsLowerChar))) := by
  refine ⟨?_, by decide, ?_⟩
  · intro key source line rec h
    exact (processLine006_email h).1
  · intro key source line a b rec hsp h
    exact processLine003_email hsp h

/-- Witness for the amended C4: both variants evaluated on the scenario
line under the zero key, with the emitted email fields as amended. -/
theorem claim_c4_witness :
    processLine006 zeroKey "/in/a.txt" "Alice+news@Example.com:hunter2".data =
      some c4rec006 ∧
    c4rec006.email =
      String.mk (normalizeEmailCore (extract006 "Alice+news@Example.com:hunter2".data).1) ∧
    processLine003 zeroKey "/in/a.txt" "Alice+news@Example.com:hunter2".data =
      some c4rec003 ∧
    splitAtFirst ':' "Alice+news@Example.com:hunter2".data =
      some ("Alice+news@Example.com".data, "hunter2".data) ∧
    c4rec003.email =
      String.mk (jsTrim ("Alice+news@Example.com".data.map jsLowerChar)) := by
  have h6 : processLine006 zeroKey "/in/a.txt" "Alice+news@Example.com:hunter2".data =
      some c4rec006 := by decide
  have h3 : processLine003 zeroKey "/in/a.txt" "Alice+news@Example.com:hunter2".data =
      some c4rec003 := by decide
  have hsp : splitAtFirst ':' "Alice+news@Example.com:hunter2".data =
      some ("Alice+news@Example.com".data, "hunter2".data) := by decide
  exact ⟨h6, claim_c4_amended.1 zeroKey "/in/a.txt" _ c4rec006 h6, h3, hsp,
    claim_c4_amended.2.2 zeroKey "/in/a.txt" _ _ _ c4rec003 hsp h3⟩

/-- Claim C7 counterexample: on a line whose second field matches the
email pattern of the spec and whose first does not, both parsers skip
the line instead of assigning the email role to the second field, so
per-line field roles are not assigned by the pattern. -/
theorem claim_c7_counterexample :
    splitAtFirst ':' "hunter2:alice@example.com".data =
      some ("hunter2".data, "alice@example.com".data) ∧
    hasEmailPattern "alice@example.com".data = true ∧
    hasEmailPattern "hunter2".data = false ∧
    processLine006 zeroKey "/in/a.txt" "hunter2:alice@example.com".data = none ∧
    processLine003 zeroKey "/in/a.txt" "hunter2:alice@example.com".data = none :=
  ⟨by decide, by decide, by decide, by decide, by decide⟩

/-- Claim C7 (amended): the parser splits at the first colon when one
occurs; otherwise it splits the trimmed line on runs of colons,
semicolons or whitespace together, taking the first token and the
second or empty token, with no semicolon preference over whitespace.
The left or first field is always the email candidate: a line is
accepted only when its normalization contains an at-sign, and no role
swap toward a field matching the spec email pattern happens. -/
theorem claim_c7_amended :
    (∀ (line a b : List Char), splitAtFirst ':' line = some (a, b) →
      extract006 line = (a, b)) ∧
    (∀ line : List Char, splitAtFirst ':' line = none →
      extract006 line = ((splitSeps (jsTrim line)).headD [],
        ((splitSeps (jsTrim line)).drop 1).headD [])) ∧
    (∀ (key : List Nat) (source : String) (line : List Char) (rec : Record),
      processLine006 key source line = some rec →
        rec.email = String.mk (normalizeEmailCore (extract006 line).1) ∧
        (normalizeEmailCore (extract006 line).1).contains '@' = true) ∧
    extract006 "a@b.cd;pw extra".data = ("a@b.cd".data, "pw".data) := by
  refine ⟨?_, ?_, ?_, by decide⟩
  · intro line a b h
    unfold extract006
    rw [h]
  · intro line h
    unfold extract006
    rw [h]
  · intro key source line rec h
    exact processLine006_email h

/-- Witness for the amended C7: the colon split on a concrete line, and
the scenario record of the parse-and-hash variant showing that the first
field is the email role. -/
theorem claim_c7_witness :
    extract006 "x:y".data = ("x".data, "y".data) ∧
    c4rec006.email =
      String.mk (normalizeEmailCore
        (extract006 "Alice+news@Example.com:hunter2".data).1) ∧
    (normalizeEmailCore
        (extract006 "Alice+news@Example.com:hunter2".data).1).contains '@' = true := by
  have h6 : processLine006 zeroKey "/in/a.txt" "Alice+news@Example.com:hunter2".data =
      some c4rec006 := by decide
  exact ⟨claim_c7_amended.1 "x:y".data "x".data "y".data (by decide),
    (claim_c7_amended.2.2.1 zeroKey "/in/a.txt" _ c4rec006 h6).1,
    (claim_c7_amended.2.2.1 zeroKey "/in/a.txt" _ c4rec006 h6).2⟩

/-! ## Claim C8: the credential classifier -/

theorem matchCrypt_cases (pw : List Char) :
    matchCrypt? pw =
      (if specMd5Crypt pw then some "md5-crypt"
       else if specSha256Crypt pw then some "sha256-crypt"
       else if specSha512Crypt pw then some "sha512-crypt"
       else none) := by
  rcases pw with _ | ⟨a, _ | ⟨b, _ | ⟨c, rest⟩⟩⟩
  · rfl
  · rfl
  · rfl
  · cases h1 : (a == '$') <;> cases h2 : (c == '$') <;>
      cases h3 : matchCryptTail rest <;> cases h4 : (b == '1') <;>
      cases h5 : (b == '5') <;> cases h6 : (b == '6') <;>
      simp_all [matchCrypt?, specMd5Crypt, specSha256Crypt, specSha512Crypt, cryptName]

theorem firstRow_specTable (pw : List Char) :
    firstRow specTable pw =
      (if matchBcrypt pw then some "bcrypt"
       else if matchArgon2 pw then some "argon2"
       else if specMd5Crypt pw then some "md5-crypt"
       else if specSha256Crypt pw then some "sha256-crypt"
       else if specSha512Crypt pw then some "sha512-crypt"
       else if matchSSHA pw then some "ssha"
       else if matchSHA pw then some "sha1-base64"
       else if specHexRow 32 pw then some "md5-hex"
       else if specHexRow 40 pw then some "sha1-hex"
       else if specHexRow 64 pw then some "sha256-hex"
       else if specHexRow 128 pw then some "sha512-hex"
       else none) := rfl

theorem detectHashCore_eq_table (v : List Char) :
    detectHashCore v = tableClassify v := by
  have hd : detectHashCore v =
      (if matchBcrypt (jsTrim v) then ((true : Bool), "bcrypt")
       else if matchArgon2 (jsTrim v) then (true, "argon2")
       else
         match matchCrypt? (jsTrim v) with
         | some t => (true, t)
         | none =>
           if matchSSHA (jsTrim v) then (true, "ssha")
           else if matchSHA (jsTrim v) then (true, "sha1-base64")
           else if !(jsTrim v).isEmpty && (jsTrim v).all isHexC then
             if (jsTrim v).length == 32 then (true, "md5-hex")
             else if (jsTrim v).length == 40 then (true, "sha1-hex")
             else if (jsTrim v).length == 64 then (true, "sha256-hex")
             else if (jsTrim v).length == 128 then (true, "sha512-hex")
             else (false, "plaintext")
           else (false, "plaintext")) := rfl
  have ht : tableClassify v =
      (match firstRow specTable (jsTrim v) with
       | some t => ((true : Bool), t)
       | none => (false, "plaintext")) := rfl
  rw [hd, ht]
  rw [firstRow_specTable]
  generalize jsTrim v = pw
  by_cases h1 : matchBcrypt pw = true
  · rw [if_pos h1, if_pos h1]
  · rw [if_neg h1, if_neg h1]
    by_cases h2 : matchArgon2 pw = true
    · rw [if_pos h2, if_pos h2]
    · rw [if_neg h2, if_neg h2]
      rw [matchCrypt_cases]
      by_cases h3 : specMd5Crypt pw = true
      · rw [if_pos h3, if_pos h3]
      · rw [if_neg h3, if_neg h3]
        by_cases h4 : specSha256Crypt pw = true
        · rw [if_pos h4, if_pos h4]
        · rw [if_neg h4, if_neg h4]
          by_cases h5 : specSha512Crypt pw = true
          · rw [if_pos h5, if_pos h5]
          · rw [if_neg h5, if_neg h5]
            by_cases h6 : matchSSHA pw = true
            · rw [if_pos h6, if_pos h6]
            · rw [if_neg h6, if_neg h6]
              by_cases h7 : matchSHA pw = true
              · rw [if_pos h7, if_pos h7]
              · rw [if_neg h7, if_neg h7]
                by_cases hhex : pw.all isHexC = true
                · by_cases hemp : pw.isEmpty = true
                  · have hnil : pw = [] := List.isEmpty_iff.mp hemp
                    subst hnil
                    simp [specHexRow]
                  · rw [if_pos (show (!pw.isEmpty && pw.all isHexC) = true by
                      simp [hhex, hemp])]
                    by_cases l32 : (pw.length == 32) = true
                    · rw [if_pos l32, if_pos (show specHexRow 32 pw = true by
                        simp [specHexRow, hhex, l32])]
                    · rw [if_neg l32, if_neg (show ¬specHexRow 32 pw = true by
                        simp [specHexRow, l32])]
                      by_cases l40 : (pw.length == 40) = true
                      · rw [if_pos l40, if_pos (show specHexRow 40 pw = true by
                          simp [specHexRow, hhex, l40])]
                      · rw [if_neg l40, if_neg (show ¬specHexRow 40 pw = true by
                          simp [specHexRow, l40])]
                        by_cases l64 : (pw.length == 64) = true
                        · rw [if_pos l64, if_pos (show specHexRow 64 pw = true by
                            simp [specHexRow, hhex, l64])]
                        · rw [if_neg l64, if_neg (show ¬specHexRow 64 pw = true by
                            simp [specHexRow, l64])]
                          by_cases l128 : (pw.length == 128) = true
                          · rw [if_pos l128, if_pos (show specHexRow 128 pw = true by
                              simp [specHexRow, hhex, l128])]
                          · rw [if_neg l128, if_neg (show ¬specHexRow 128 pw = true by
                              simp [specHexRow, l128])]
                · rw [if_neg (show ¬(!pw.isEmpty && pw.all isHexC) = true by
                    simp [hhex])]
                  rw [if_neg (show ¬specHexRow 32 pw = true by simp [specHexRow, hhex]),
                    if_neg (show ¬specHexRow 40 pw = true by simp [specHexRow, hhex]),
                    if_neg (show ¬specHexRow 64 pw = true by simp [specHexRow, hhex]),
                    if_neg (show ¬specHexRow 128 pw = true by simp [specHexRow, hhex])]

theorem firstRow_mem {rows : List ((List Char → Bool) × String)} {pw : List Char}
    {t : String} (h : firstRow rows pw = some t) : ∃ row ∈ rows, row.2 = t := by
  induction rows with
  | nil => simp [firstRow] at h
  | cons row rest ih =>
    unfold firstRow at h
    by_cases hr : row.1 pw = true
    · rw [if_pos hr] at h
      exact ⟨row, by simp, Option.some.inj h⟩
    · rw [if_neg hr] at h
      rcases ih h with ⟨r2, hm, ht⟩
      exact ⟨r2, by simp [hm], ht⟩

theorem tableClassify_mem (v : List Char) : tableClassify v ∈ hashTypePairs := by
  have ht : tableClassify v =
      (match firstRow specTable (jsTrim v) with
       | some t => ((true : Bool), t)
       | none => (false, "plaintext")) := rfl
  rw [ht]
  cases hf : firstRow specTable (jsTrim v) with
  | none => simp [hashTypePairs]
  | some t =>
    rcases firstRow_mem hf with ⟨row, hm, hrt⟩
    subst hrt
    simp only [specTable, List.mem_cons, List.not_mem_nil, or_false] at hm
    rcases hm with h | h | h | h | h | h | h | h | h | h | h <;>
      · subst h
        simp [hashTypePairs]

/-- Claim C8: detectHash is total with values in the enumerated set, and
it classifies exactly as the section 4.2 table taken in order with first
match winning, falling back to plaintext with is-hash false when no
pattern matches. -/
theorem claim_c8_classifier (s : String) :
    detectHash s = tableClassify s.data ∧ detectHash s ∈ hashTypePairs := by
  have he : detectHash s = tableClassify s.data := detectHashCore_eq_table s.data
  exact ⟨he, he ▸ tableClassify_mem s.data⟩

end BreachIngestor
